import Mathlib

/-!
# Verification of the `bfint.py` brainfuck interpreter

A shallow embedding of the interpreter in `bfint.py`: the jump-table
construction performed in `Interpreter.__init__`, the per-instruction
operations (`inc`, `moveptr`, `startbranch`, `endbranch`, `input`,
the `.` output lambda, `breakpoint`), the `_Debugger` command
processing (`_Debugger.__call__`, `cont`, `set`), and the
fetch-dispatch-advance loop of `Interpreter.start`.

Modelling conventions:
* Python integers are `Int` (Python `%` on a positive modulus agrees with
  `Int.emod`); tape cells are `PyVal`, a sum of Python `int` and `str`
  values, because `_Debugger.set` stores a raw string token into a cell.
* Fallible Python code (uncaught `IndexError`/`KeyError`/`TypeError`,
  i.e. a crash of the process) is modelled with `Option`: `none` is a
  crash.  The debugger blocking on terminal input is modelled by a queue
  of pending command lines; an empty queue at a prompt is also `none`.
* `sys.stdin` is modelled as a list of character codes (`inputBuf`);
  whether it `isatty()` is the `interactive` flag.  The `.`-output sink
  and the `stderr` diagnostic sink are lists of emitted values.
* Display-only code (`show_strip`, `time.sleep`, cursor control) has no
  semantic effect and is omitted.
* `str.split()` is modelled as splitting on spaces (the separator that
  actually occurs in command lines).
-/

namespace Bfint

/-- A Python runtime value that can end up in a tape cell: the tape is
initialised with `int` 0s, but `_Debugger.set` stores a raw `str` token. -/
inductive PyVal where
  | int (n : Int)
  | str (s : String)
deriving DecidableEq, Repr

/-- Python truthiness for the values that can occur in a cell:
`0` and `""` are falsy, everything else truthy. -/
def truthy : PyVal → Bool
  | .int n => n != 0
  | .str s => s != ""

/-- `Interpreter.MAXINT` (line 78). -/
def MAXINT : Int := 256

/-- The whole interpreter state: the fields of `Interpreter` plus the
fields of its `_Debugger` (`last_command`), with stdin split into the
program-input stream (`inputBuf`) and the pending debugger command
lines (`cmdQueue`), and the output/diagnostic sinks made explicit. -/
structure BFState where
  memory : List PyVal
  dptr : Nat
  program : List Char
  iptr : Nat
  jumps : List (Nat × Nat)
  printInput : Bool
  maxPtr : Nat
  bp : Bool
  bpSoft : Bool
  debug : Bool
  interactive : Bool
  inputBuf : List Nat
  output : List Nat
  lastCommand : String
  cmdQueue : List String
  errors : List String
deriving DecidableEq, Repr

/-- The current cell `self.memory[self.dptr]`; `self.dptr` is always in
range in the source (it is reduced mod `len(self.memory)` on every move),
so the default value of `getD` is never consulted. -/
def cellAt (s : BFState) : PyVal := s.memory.getD s.dptr (.int 0)

/-- The jump-table pass of `Interpreter.__init__` (lines 108-115):
push the position of each `'['`; on `']'` pop the latest pending open and
record the pair in both directions.  `jumpstack.pop()` on an empty stack
raises an uncaught `IndexError` (`none`).  Note the source records
nothing for opens still pending when the pass ends.  `k` is the position
of the head of the remaining text `l`. -/
def buildJumpsAux : List Char → Nat → List Nat → List (Nat × Nat) → Option (List (Nat × Nat))
  | [], _, _, jumps => some jumps
  | c :: rest, k, stack, jumps =>
    if c = '[' then buildJumpsAux rest (k + 1) (k :: stack) jumps
    else if c = ']' then
      match stack with
      | [] => none
      | s0 :: stk => buildJumpsAux rest (k + 1) stk ((k, s0) :: (s0, k) :: jumps)
    else buildJumpsAux rest (k + 1) stack jumps

/-- `self.jumps` as built by `Interpreter.__init__`. -/
def buildJumps (p : List Char) : Option (List (Nat × Nat)) := buildJumpsAux p 0 [] []

/-- Lookup in `self.jumps`.  The Python dict has unique keys (each
bracket position is assigned exactly once), so association-list lookup
of the most precise first match is equivalent; a missing key is an
uncaught `KeyError` in the source, hence `none`. -/
def jlookup (js : List (Nat × Nat)) (k : Nat) : Option Nat :=
  (js.find? (fun pr => pr.1 == k)).map (fun pr => pr.2)

/-- `Interpreter.inc` (lines 148-149): cell `(cell + direction) % MAXINT`.
Python `+` on a `str` cell raises an uncaught `TypeError`. -/
def inc (d : Int) (s : BFState) : Option BFState :=
  match cellAt s with
  | .int n => some { s with memory := s.memory.set s.dptr (.int ((n + d) % MAXINT)) }
  | .str _ => none

/-- `Interpreter.moveptr` (lines 151-153): pointer `(dptr + direction)
% len(memory)` and high-water mark `max(new dptr, old max)`. -/
def moveptr (d : Int) (s : BFState) : BFState :=
  let p := (((s.dptr : Int) + d) % (s.memory.length : Int)).toNat
  { s with dptr := p, maxPtr := max p s.maxPtr }

/-- `Interpreter.startbranch` (lines 155-157): on a falsy cell jump to
`self.jumps[self.iptr]` (a missing key is an uncaught `KeyError`). -/
def startbranch (s : BFState) : Option BFState :=
  if truthy (cellAt s) then some s
  else (jlookup s.jumps s.iptr).map (fun j => { s with iptr := j })

/-- The scan `for i in range(iptr+1, len(program))` of
`Interpreter.endbranch`: the first position `≥ k` holding a symbol other
than `']'`, or `none` when the scan runs off the end (in which case the
source's loop ends without `break` and `iptr` is left unchanged).
`l` is the suffix of the program starting at position `k`. -/
def firstNonCloseAux : List Char → Nat → Option Nat
  | [], _ => none
  | c :: rest, k => if c = ']' then firstNonCloseAux rest (k + 1) else some k

/-- First position `≥ k` in `p` holding a symbol other than `']'`. -/
def firstNonClose (p : List Char) (k : Nat) : Option Nat :=
  firstNonCloseAux (p.drop k) k

/-- `Interpreter.endbranch` (lines 159-168): on a truthy cell jump back
to `self.jumps[self.iptr]`; otherwise clear `bp_soft` and set `iptr` to
`i-1` for the first non-`']'` position `i` after `iptr` (unchanged when
every later symbol is `']'`). -/
def endbranch (s : BFState) : Option BFState :=
  if truthy (cellAt s) then (jlookup s.jumps s.iptr).map (fun j => { s with iptr := j })
  else
    some { s with
      bpSoft := false
      iptr := match firstNonClose s.program (s.iptr + 1) with
              | some r => r - 1
              | none => s.iptr }

/-- The interactive core of `Interpreter.input` (lines 171-183), as a
function of `print_input` and the remaining stdin characters.  Returns
the new `print_input`, the remaining stdin, the character finally bound
to `char` (`none` for the empty string, which the caller treats as end
of input), and the number of `Input:` prompts printed.

Tracing the source: a prompt is printed iff `print_input` is set on
entry; reading `''` (stream exhausted) takes the `else` branch and sets
`print_input = False`; a newline read with `print_input` set is replaced
by `''`; a newline read with `print_input` clear sets `print_input` and
recurses (`self.input(); return`), so the recursion below starts with
the flag `true` (and the outer, promptless entry contributed 0 prompts). -/
def inputStep : Bool → List Nat → Bool × List Nat × Option Nat × Nat
  | pi, [] => (false, [], none, if pi then 1 else 0)
  | pi, c :: rest =>
    if c = 10 then
      if pi then (pi, rest, none, 1)
      else inputStep true rest
    else (false, rest, some c, if pi then 1 else 0)

/-- `Interpreter.input` (lines 170-191): interactive stdin goes through
`inputStep`; non-interactive stdin reads one raw character.  An empty
`char` sets `iptr = len(program) - 1` (so that the `+1` after dispatch
ends the run); otherwise the cell receives `ord(char)` — with no
reduction mod `MAXINT`. -/
def input (s : BFState) : BFState :=
  if s.interactive then
    let r := inputStep s.printInput s.inputBuf
    match r.2.2.1 with
    | none => { s with printInput := r.1, inputBuf := r.2.1, iptr := s.program.length - 1 }
    | some c => { s with printInput := r.1, inputBuf := r.2.1,
                         memory := s.memory.set s.dptr (.int c) }
  else
    match s.inputBuf with
    | [] => { s with iptr := s.program.length - 1 }
    | c :: rest => { s with inputBuf := rest, memory := s.memory.set s.dptr (.int c) }

/-- The `'.'` dispatch lambda (line 102): `chr(cell)` written to the
output sink.  `chr` raises on an `int` outside `[0, 0x110000)` and
`TypeError` on a `str`. -/
def outputIns (s : BFState) : Option BFState :=
  match cellAt s with
  | .int n => if 0 ≤ n ∧ n < 1114112 then some { s with output := s.output ++ [n.toNat] } else none
  | .str _ => none

/-- `Interpreter.breakpoint` (lines 193-200): a no-op without a debugger;
`hard` sets `bp` and clears `bp_soft`; soft sets `bp` only when `bp_soft`
is already set. -/
def breakpoint (hard : Bool) (s : BFState) : BFState :=
  if s.debug = false then s
  else if hard then { s with bp := true, bpSoft := false }
  else if s.bpSoft then { s with bp := true } else s

/-- One fetch and dispatch, `Interpreter.interpret` (lines 202-204):
`self.dispatch[self.program[self.iptr]]()` with the dispatch table of
lines 95-106.  A symbol outside the table would be an uncaught
`KeyError` (the loader only ever produces these ten). -/
def execIns (s : BFState) : Option BFState :=
  match s.program[s.iptr]? with
  | none => none
  | some c =>
    if c = '+' then inc 1 s
    else if c = '-' then inc (-1) s
    else if c = '>' then some (moveptr 1 s)
    else if c = '<' then some (moveptr (-1) s)
    else if c = '[' then startbranch s
    else if c = ']' then endbranch s
    else if c = '.' then outputIns s
    else if c = ',' then some (input s)
    else if c = '!' then some (breakpoint true s)
    else if c = '?' then some (breakpoint false s)
    else none

/-- One full engine step of the run loop of `Interpreter.start`
(lines 217-219): fetch, dispatch, then `self.iptr += 1`. -/
def engineStep (s : BFState) : Option BFState :=
  (execIns s).map (fun t => { t with iptr := t.iptr + 1 })

/-- The command names of `_Debugger.dispatch` (lines 40-46), in the
insertion order the `for i in self.dispatch` loop iterates them. -/
def dbgCommands : List String := ["next", "previous", "step", "set", "continue"]

/-- `i.find(cmd[0]) == 0` of `_Debugger.__call__` (line 60): the token
occurs at position 0 of the command name, i.e. is a prefix of it. -/
def strMatches (a b : String) : Bool := a.data.isPrefixOf b.data

/-- The first dispatch-table command the token is a prefix of. -/
def findCommand (tok : String) : Option String :=
  dbgCommands.find? (fun c => strMatches tok c)

/-- `str.split()` on a command line (modelled as splitting on spaces,
dropping empty pieces, as Python `split()` with no argument does). -/
def splitWsAux : List Char → List Char → List String
  | [], acc => if acc.isEmpty then [] else [String.mk acc.reverse]
  | c :: rest, acc =>
    if c = ' ' then
      if acc.isEmpty then splitWsAux rest []
      else String.mk acc.reverse :: splitWsAux rest []
    else splitWsAux rest (c :: acc)

/-- `cmd = input(...).split()` of `_Debugger.__call__` (line 55). -/
def splitWs (line : String) : List String := splitWsAux line.data []

/-- The body of the `for i in self.dispatch` loop of `_Debugger.__call__`
(lines 59-68) applied to the resolved token and argument list: on the
first name the token is a prefix of, record it as `last_command` and run
its handler; with no match report `Not a command` and return `None`.

Handler effects from the source: `next`/`previous` are the `>`/`<`
dispatch entries (`moveptr`), which return `None`; `step` is `lambda: 1`;
`set` stores the raw token `args[0]` (a `str`!) into the current cell and
raises an uncaught `IndexError` when `args` is empty; `continue` clears
`bp`.  The handlers taking no argument are reached through the
`except TypeError` retry.  The returned `Bool` is the truthiness of the
handler's return value (`1` for `step`, `None` otherwise), which the run
loop uses to decide whether the pending instruction executes. -/
def dbgDispatch (s : BFState) (tok : String) (args : List String) : Option (BFState × Bool) :=
  match findCommand tok with
  | none => some ({ s with errors := s.errors ++ [tok] }, false)
  | some name =>
    let s1 := { s with lastCommand := name }
    if name = "next" then some (moveptr 1 s1, false)
    else if name = "previous" then some (moveptr (-1) s1, false)
    else if name = "step" then some (s1, true)
    else if name = "set" then
      match args with
      | [] => none
      | a :: _ => some ({ s1 with memory := s1.memory.set s1.dptr (.str a) }, false)
    else if name = "continue" then some ({ s1 with bp := false }, false)
    else none

/-- `_Debugger.__call__` (lines 54-68) on one command line.  A blank
line substitutes `cmd = self.last_command` — a *string*, so `cmd[0]` is
its first character and `cmd[1:]` the remaining characters (indexing an
empty `last_command` would be an uncaught `IndexError`; it is initialised
to `'c'` and only ever overwritten with full command names). -/
def dbgCall (s : BFState) (line : String) : Option (BFState × Bool) :=
  match splitWs line with
  | [] =>
    match s.lastCommand.data with
    | [] => none
    | ch :: rest => dbgDispatch s (String.mk [ch]) (rest.map (fun c => String.mk [c]))
  | tok :: args => dbgDispatch s tok args

/-- One iteration of the `while self.iptr < len(self.program)` body of
`Interpreter.start` (lines 210-219), after the loop guard has passed:
with `bp` set, consume one command line (blocking with no pending line:
`none`); a falsy debugger return `continue`s the loop, a truthy one
falls through to execute the pending instruction. -/
def loopBody (s : BFState) : Option BFState :=
  if s.bp then
    match s.cmdQueue with
    | [] => none
    | line :: rest =>
      match dbgCall { s with cmdQueue := rest } line with
      | none => none
      | some (s2, allow) => if allow then engineStep s2 else some s2
  else engineStep s

/-- The run loop of `Interpreter.start`, fuel-bounded: iterate
`loopBody` while `iptr < len(program)`. -/
def run : Nat → BFState → Option BFState
  | 0, s => some s
  | n + 1, s =>
    if s.iptr < s.program.length then (loopBody s).bind (run n) else some s

/-- `Interpreter.__init__` (lines 81-128): 300 zeroed cells, pointers at
0, the jump table built by `buildJumps` (whose `IndexError` aborts
before execution can start), `print_input = True`, breakpoint flags
clear, `last_command` initialised to `'c'`. -/
def mkInterpreter (program : List Char) (debug interactive : Bool)
    (inputBuf : List Nat) (cmds : List String) : Option BFState :=
  (buildJumps program).map fun js =>
    { memory := List.replicate 300 (PyVal.int 0)
      dptr := 0
      program := program
      iptr := 0
      jumps := js
      printInput := true
      maxPtr := 0
      bp := false
      bpSoft := false
      debug := debug
      interactive := interactive
      inputBuf := inputBuf
      output := []
      lastCommand := "c"
      cmdQueue := cmds
      errors := [] }

/-- The nesting-depth scan defining the *matching* closing bracket:
walking the text from position `j` at depth `d`, a `']'` at depth 0 is
the match; `'['` increases and `']'` decreases the depth. -/
def matchDepth : List Char → Nat → Nat → Option Nat
  | [], _, _ => none
  | c :: rest, j, d =>
    if c = ']' then
      if d = 0 then some j else matchDepth rest (j + 1) (d - 1)
    else if c = '[' then matchDepth rest (j + 1) (d + 1)
    else matchDepth rest (j + 1) d

/-- The matching closing bracket of the bracket at position `i`: the
first later `']'` at equal nesting depth. -/
def matchClose (p : List Char) (i : Nat) : Option Nat :=
  matchDepth (p.drop (i + 1)) (i + 1) 0

/-- The property a pair recorded in the jump table satisfies: it links
an opening bracket with its matching closing bracket, in one direction
or the other. -/
def PairOk (p : List Char) (pr : Nat × Nat) : Prop :=
  (p[pr.1]? = some '[' ∧ p[pr.2]? = some ']' ∧ pr.1 < pr.2 ∧ matchClose p pr.1 = some pr.2)
  ∨ (p[pr.1]? = some ']' ∧ p[pr.2]? = some '[' ∧ pr.2 < pr.1 ∧ matchClose p pr.2 = some pr.1)

/-- Balancedness in the words of the specification: no prefix has more
closing than opening brackets, and the totals agree ("balanced and
properly nested").  Stated following the spec, to be compared with what
`buildJumps` actually accepts. -/
def balancedSpec (p : List Char) : Prop :=
  (∀ n, ((p.take n).count ']') ≤ ((p.take n).count '[')) ∧ p.count '[' = p.count ']'

/-- A freshly initialised interpreter state with an empty program: the
field values of `Interpreter.__init__` and `_Debugger.__init__`, used as
the base for the concrete states of the witnesses below. -/
def baseState : BFState where
  memory := List.replicate 300 (PyVal.int 0)
  dptr := 0
  program := []
  iptr := 0
  jumps := []
  printInput := true
  maxPtr := 0
  bp := false
  bpSoft := false
  debug := false
  interactive := false
  inputBuf := []
  output := []
  lastCommand := "c"
  cmdQueue := []
  errors := []

/-- A state about to execute the first `']'` of the two-bracket run at
the end of `[[]]`, with the current cell 0 (this state is also reached
by real runs, e.g. position 4 of `+[[-]]`; see the `+[[-]]` evaluation in
the counterexample for claim C5). -/
def c5Cex : BFState :=
  { baseState with
    program := ['[', '[', ']', ']']
    iptr := 2
    jumps := [(3, 0), (0, 3), (2, 1), (1, 2)] }

/-- A debug-mode state suspended at a breakpoint, awaiting a command. -/
def suspended : BFState :=
  { baseState with program := ['+'], bp := true, debug := true, interactive := true }

/-- A balanced three-symbol program `[+]` about to execute its opening
bracket on a zero cell. -/
def c7w : BFState :=
  { baseState with program := ['[', '+', ']'], jumps := [(2, 0), (0, 2)] }

/-- A state at the first `']'` of the run in `[[]]+`, current cell 0,
where the run of closing brackets is followed by a non-`']'` symbol. -/
def c5w : BFState :=
  { baseState with
    program := ['[', '[', ']', ']', '+']
    iptr := 2
    jumps := [(3, 0), (0, 3), (2, 1), (1, 2)] }

/-- A suspended debug-mode state whose pending command line is the
unrecognized word `frobnicate`. -/
def c8w : BFState :=
  { suspended with cmdQueue := ["frobnicate"] }

/-- A suspended debug-mode state, no command issued yet (`last_command`
still the initial `'c'`), with a blank line pending. -/
def c10w : BFState :=
  { suspended with cmdQueue := [""] }

/-! ## Helper lemmas -/

lemma lt_length_of_getElem? {l : List Char} {n : Nat} {c : Char} (h : l[n]? = some c) :
    n < l.length := by
  by_contra hn
  push_neg at hn
  rw [List.getElem?_eq_none hn] at h
  cases h

lemma drop_cons {p : List Char} {k : Nat} {c : Char} {rest : List Char}
    (h : p.drop k = c :: rest) : p[k]? = some c ∧ p.drop (k + 1) = rest := by
  constructor
  · have h0 := List.getElem?_drop p k 0
    rw [h] at h0
    simpa using h0.symm
  · have h1 : (p.drop k).drop 1 = p.drop (k + 1) := List.drop_drop 1 k p
    rw [← h1, h]
    rfl

lemma baseState_memory_length : baseState.memory.length = 300 :=
  List.length_replicate 300 (PyVal.int 0)

lemma run_halted {s : BFState} (h : ¬ s.iptr < s.program.length) :
    ∀ n, run n s = some s := by
  intro n
  cases n with
  | zero => rfl
  | succ m => simp [run, h]

/-! ## C9: pointer wraparound -/

/-- C9: `Interpreter.moveptr` wraps modulo the tape length 300: `<` at
position 0 lands at 299, `>` at position 299 lands at 0, and in both
cases the high-water mark becomes the maximum of the new pointer and
its old value.  (`<` and `>` dispatch to `moveptr` with direction
`-1`/`+1`, lines 98-99.) -/
theorem pointer_wrap (s : BFState) (h : s.memory.length = 300) :
    (s.dptr = 0 → (moveptr (-1) s).dptr = 299 ∧ (moveptr (-1) s).maxPtr = max 299 s.maxPtr) ∧
    (s.dptr = 299 → (moveptr 1 s).dptr = 0 ∧ (moveptr 1 s).maxPtr = max 0 s.maxPtr) := by
  constructor
  · intro h0
    simp only [moveptr, h, h0]
    norm_num
    exact ⟨rfl, rfl⟩
  · intro h299
    simp only [moveptr, h, h299]
    norm_num

/-- Witness for C9 at concrete 300-cell states. -/
theorem pointer_wrap_witness :
    ((moveptr (-1) baseState).dptr = 299 ∧
      (moveptr (-1) baseState).maxPtr = max 299 baseState.maxPtr) ∧
    ((moveptr 1 { baseState with dptr := 299 }).dptr = 0 ∧
      (moveptr 1 { baseState with dptr := 299 }).maxPtr =
        max 0 { baseState with dptr := 299 }.maxPtr) :=
  ⟨(pointer_wrap baseState baseState_memory_length).1 rfl,
   (pointer_wrap { baseState with dptr := 299 } baseState_memory_length).2 rfl⟩

/-! ## C6: input exhaustion terminates the run -/

lemma input_exhausted {s : BFState} (h2 : s.inputBuf = []) :
    (input s).iptr = s.program.length - 1 ∧ (input s).program = s.program := by
  cases hi : s.interactive <;> simp [input, hi, h2, inputStep]

/-- C6: executing `,` with the input stream exhausted sets the program
counter (after the loop's `+1`) to the end of the program, and the run
loop then stops without executing any further instruction; the step
itself completes normally (`some`), so exhaustion is a clean
termination, not an error. -/
theorem input_exhaustion (s : BFState) (h1 : s.program[s.iptr]? = some ',')
    (h2 : s.inputBuf = []) :
    ∃ s', engineStep s = some s' ∧ s'.iptr = s.program.length ∧ ∀ n, run n s' = some s' := by
  have hlen : s.iptr < s.program.length := lt_length_of_getElem? h1
  have hio := input_exhausted h2
  refine ⟨{ input s with iptr := (input s).iptr + 1 }, ?_, ?_, ?_⟩
  · simp +decide [engineStep, execIns, h1]
  · simp [hio.1]
    omega
  · apply run_halted
    simp [hio.1, hio.2]
    omega

/-- Witness for C6: a one-symbol program `,` with empty input. -/
theorem input_exhaustion_witness :
    ∃ s', engineStep { baseState with program := [','] } = some s' ∧
      s'.iptr = { baseState with program := [','] }.program.length ∧
      ∀ n, run n s' = some s' :=
  input_exhaustion { baseState with program := [','] } rfl rfl

/-! ## C4: interactive newline handling -/

/-- C4 (counterexample): the claimed interactive newline semantics is
false on the code.  With the prompt freshly printed (`print_input`
true) and input `"\n a"`, the first newline is *not* discarded and
retried: `char` is replaced by `''` and the caller terminates the run
(`inputStep` returns `none`, the 97 is never read).  After a
non-terminator has been read (`print_input` false), a following newline
is *not* stored as a literal newline: it triggers the retry path (the
result is never `some 10`), and the retry prints a fresh prompt (prompt
count 1, not 0 as "without prompting again" requires). -/
theorem input_newline_counterexample :
    (inputStep true [10, 97]).2.2.1 = none ∧
    (inputStep false [10]).2.2.1 = none ∧
    ((inputStep false [10]).2.2.1 == some 10) = false ∧
    (inputStep false [10, 97]).2.2.2 = 1 := by
  decide

/-- C4 (amended): what `Interpreter.input` actually does with interactive
line terminators: a newline read while `print_input` is set is converted
to empty input, terminating the read with the end-of-input outcome; a
newline read while `print_input` is clear (some non-terminator was read
before) sets `print_input` and retries — issuing a fresh prompt — which
is the same as restarting the read with the flag set; and no line
terminator is ever stored in the cell by the interactive path. -/
theorem input_newline_amended :
    (∀ buf : List Nat, inputStep true (10 :: buf) = (true, buf, none, 1)) ∧
    (∀ buf : List Nat, inputStep false (10 :: buf) = inputStep true buf) ∧
    (∀ pi buf, ((inputStep pi buf).2.2.1 == some 10) = false) := by
  refine ⟨fun buf => rfl, fun buf => rfl, ?_⟩
  intro pi buf
  induction buf generalizing pi with
  | nil => cases pi <;> rfl
  | cons c rest ih =>
    by_cases hc : c = 10
    · subst hc
      cases pi
      · simpa [inputStep] using ih true
      · rfl
    · cases pi <;> simp [inputStep, hc]

/-! ## C2: the soft breakpoint never arms -/

/-- C2 (code bug): a full debug-mode run of the program `!?+` with the
single command `continue` entered at the `!` suspension.  The module
docstring (and the claim) say `?` "only turns on after a ! has been
encountered": the `?` here follows the `!` with no intervening closing
bracket, so it should arm a hard break and suspend before `+`, needing
a further command.  Instead the run completes with the queue exhausted:
`bp_soft` is `False` everywhere (line 198 *clears* it on `!`, and
nothing ever sets it), so `?` (line 199) is a no-op, `bp` stays clear,
and `+` executes — final `iptr` 3, cell 1, both flags off. -/
theorem soft_break_never_arms :
    ((mkInterpreter ['!', '?', '+'] true true [] ["continue"]).bind (run 10)).map
      (fun t => (t.iptr, t.bp, t.bpSoft, t.memory.getD 0 (PyVal.int 0))) =
    some (3, false, false, PyVal.int 1) := by
  rfl

/-! ## C3: cell writes outside the byte range -/

/-- C3 (code bug): two cell writes that leave the cell outside the
integers in `[0,256)`.  The debugger command `set 5` stores the raw
*string* token `"5"` (`_Debugger.set` does `memory[dptr] = args[0]` with
`args` the split command line, line 52) — not an integer at all.  And
`,` stores `ord(char)` unreduced (line 191): reading U+20AC (code 8364)
stores 8364, and `256 ≤ 8364`.  Only `+`/`-` apply `% MAXINT`. -/
theorem cell_write_not_byte :
    (dbgCall suspended ("set 5")).map (fun r => r.1.memory.getD 0 (PyVal.int 0)) =
      some (PyVal.str ("5")) ∧
    (engineStep { baseState with program := [','], inputBuf := [8364] }).map
      (fun t => t.memory.getD 0 (PyVal.int 0)) = some (PyVal.int 8364) ∧
    (256 : Int) ≤ 8364 := by
  refine ⟨rfl, rfl, by norm_num⟩

/-! ## C5: coalesced traversal of runs of closing brackets -/

lemma firstNonCloseAux_some (p : List Char) :
    ∀ (l : List Char) (a r : Nat), l = p.drop a →
      firstNonCloseAux l a = some r →
      a ≤ r ∧ (∃ c, p[r]? = some c ∧ (c == ']') = false) ∧
        ∀ k, a ≤ k → k < r → p[k]? = some ']' := by
  intro l
  induction l with
  | nil => intro a r _ h; cases h
  | cons c rest ih =>
    intro a r hl h
    obtain ⟨hga, hdrop⟩ := drop_cons hl.symm
    by_cases hc : c = ']'
    · subst hc
      rw [firstNonCloseAux, if_pos rfl] at h
      obtain ⟨h1, h2, h3⟩ := ih (a + 1) r hdrop.symm h
      refine ⟨by omega, h2, ?_⟩
      intro k hk1 hk2
      rcases Nat.eq_or_lt_of_le hk1 with he | hlt
      · rw [← he]
        exact hga
      · exact h3 k (by omega) hk2
    · rw [firstNonCloseAux, if_neg hc] at h
      cases h
      refine ⟨le_refl a, ⟨c, hga, ?_⟩, ?_⟩
      · simp [hc]
      · intro k hk1 hk2
        omega

lemma firstNonCloseAux_none (p : List Char) :
    ∀ (l : List Char) (a : Nat), l = p.drop a →
      firstNonCloseAux l a = none →
      ∀ k, a ≤ k → k < p.length → p[k]? = some ']' := by
  intro l
  induction l with
  | nil =>
    intro a hl _ k hk1 hk2
    have : p.length ≤ a := List.drop_eq_nil_iff.mp hl.symm
    omega
  | cons c rest ih =>
    intro a hl h
    obtain ⟨hga, hdrop⟩ := drop_cons hl.symm
    by_cases hc : c = ']'
    · subst hc
      rw [firstNonCloseAux, if_pos rfl] at h
      intro k hk1 hk2
      rcases Nat.eq_or_lt_of_le hk1 with he | hlt
      · rw [← he]
        exact hga
      · exact ih (a + 1) hdrop.symm h k (by omega) hk2
    · rw [firstNonCloseAux, if_neg hc] at h
      cases h

/-- C5 (amended): at a `']'` with the current cell 0, when the run of
consecutive `']'` symbols starting there is followed by some non-`']'`
symbol at position `r`, the single engine step lands the program counter
at `r`, just past the last `']'` of the run (and clears the soft-armed
flag); but when the run of `']'` extends to the end of the program, the
scan of `endbranch` finds no non-`']'` symbol, leaves `iptr` where it
was, and the step only advances the counter by one — each remaining
`']'` then costs its own step. -/
theorem close_run_coalescing (s : BFState) (hi : s.program[s.iptr]? = some ']')
    (hcell : cellAt s = PyVal.int 0) :
    (∀ r, firstNonClose s.program (s.iptr + 1) = some r →
      engineStep s = some { s with bpSoft := false, iptr := r } ∧
      s.iptr < r ∧
      (∀ k, s.iptr < k → k < r → s.program[k]? = some ']') ∧
      (∃ c, s.program[r]? = some c ∧ (c == ']') = false)) ∧
    (firstNonClose s.program (s.iptr + 1) = none →
      engineStep s = some { s with bpSoft := false, iptr := s.iptr + 1 } ∧
      ∀ k, s.iptr < k → k < s.program.length → s.program[k]? = some ']') := by
  constructor
  · intro r hr
    obtain ⟨h1, h2, h3⟩ := firstNonCloseAux_some s.program _ _ r rfl hr
    have hr1 : r - 1 + 1 = r := by omega
    refine ⟨?_, by omega, fun k hk1 hk2 => h3 k (by omega) hk2, h2⟩
    have hstep : engineStep s = some { s with bpSoft := false, iptr := r - 1 + 1 } := by
      simp +decide [engineStep, execIns, hi, endbranch, hcell, truthy, hr]
    rw [hr1] at hstep
    exact hstep
  · intro hr
    have h3 := firstNonCloseAux_none s.program _ _ rfl hr
    refine ⟨?_, fun k hk1 hk2 => h3 k (by omega) hk2⟩
    simp +decide [engineStep, execIns, hi, endbranch, hcell, truthy, hr]

/-- Witness for the amended C5: in `[[]]+` with cell 0, one step from
the first `']'` of the run (position 2) lands at position 4, past both
closing brackets. -/
theorem close_run_coalescing_witness :
    engineStep c5w = some { c5w with bpSoft := false, iptr := 4 } ∧
    c5w.iptr < 4 ∧
    (∀ k, c5w.iptr < k → k < 4 → c5w.program[k]? = some ']') ∧
    (∃ c, c5w.program[4]? = some c ∧ (c == ']') = false) :=
  (close_run_coalescing c5w rfl rfl).1 4 rfl

/-- C5 (counterexample): in `[[]]` with cell 0 and the counter at the
first `']'` of the final run (position 2), the claim says the single
step traverses the whole run, landing just past its last `']'` (at 4).
The code leaves `iptr` unchanged in the scan (no non-`']'` symbol
follows), so the step lands at 3 — still on a `']'` — and a second
step is needed to reach 4. -/
theorem close_run_counterexample :
    (engineStep c5Cex).map BFState.iptr = some 3 ∧
    ((engineStep c5Cex).bind engineStep).map BFState.iptr = some 4 ∧
    c5Cex.program[2]? = some ']' ∧ c5Cex.program[3]? = some ']' ∧
    cellAt c5Cex = PyVal.int 0 :=
  ⟨rfl, rfl, rfl, rfl, rfl⟩

/-! ## C8: unrecognized debugger commands -/

/-- C8: when the debugger is suspended (`bp` set) and the pending
command line's first token is a prefix of none of the five commands,
the loop iteration only consumes the line and appends the token to the
diagnostic stream: tape, pointer, program counter, breakpoint flags and
`last_command` are all unchanged (the result differs from `s` only in
`cmdQueue` and `errors`), `bp` is still set, so the next iteration
suspends again at the same instruction. -/
theorem invalid_command_noop (s : BFState) (line tok : String) (args : List String)
    (rest : List String) (hbp : s.bp = true) (hq : s.cmdQueue = line :: rest)
    (hsp : splitWs line = tok :: args)
    (hnc : ∀ c ∈ dbgCommands, strMatches tok c = false) :
    loopBody s = some { s with cmdQueue := rest, errors := s.errors ++ [tok] } := by
  have hfind : findCommand tok = none := by
    rw [findCommand, List.find?_eq_none]
    intro c hc
    simp [hnc c hc]
  simp [loopBody, hbp, hq, dbgCall, hsp, dbgDispatch, hfind]

/-- Witness for C8: the command `frobnicate` at a concrete suspension. -/
theorem invalid_command_noop_witness :
    loopBody c8w = some { c8w with cmdQueue := [], errors := c8w.errors ++ ["frobnicate"] } :=
  invalid_command_noop c8w ("frobnicate") ("frobnicate") [] [] rfl rfl rfl (by decide)

/-! ## C10: blank input at the first suspension -/

/-- C10: with `last_command` still holding its initial value `'c'` (no
command issued yet), a blank line at a suspension resolves — through the
`cmd = self.last_command` substitution and prefix matching of `'c'` —
to `continue`: the iteration clears `bp` (recording `continue` as the
last command) and consumes only the queue entry; and any state with
`bp` clear runs the engine step normally, so execution resumes. -/
theorem blank_line_first_suspension (s : BFState) (rest : List String)
    (hbp : s.bp = true) (hlast : s.lastCommand = "c") (hq : s.cmdQueue = "" :: rest) :
    loopBody s = some { s with cmdQueue := rest, lastCommand := "continue", bp := false } ∧
    (∀ t : BFState, t.bp = false → loopBody t = engineStep t) := by
  constructor
  · have hsw : splitWs ("") = [] := rfl
    have hdata : ("c" : String).data = ['c'] := rfl
    have hfc : findCommand (String.mk ['c']) = some ("continue") := rfl
    simp +decide [loopBody, hbp, hq, dbgCall, hsw, hlast, hdata, dbgDispatch, hfc]
  · intro t ht
    simp [loopBody, ht]

/-- Witness for C10: a concrete first suspension with a blank line. -/
theorem blank_line_first_suspension_witness :
    loopBody c10w = some { c10w with cmdQueue := [], lastCommand := "continue", bp := false } ∧
    (∀ t : BFState, t.bp = false → loopBody t = engineStep t) :=
  blank_line_first_suspension c10w [] rfl rfl rfl

/-! ## C1/C7: jump-table characterization -/

lemma buildJumpsAux_open (rest : List Char) (k : Nat) (stack : List Nat)
    (jumps : List (Nat × Nat)) :
    buildJumpsAux ('[' :: rest) k stack jumps = buildJumpsAux rest (k + 1) (k :: stack) jumps :=
  rfl

lemma buildJumpsAux_close_nil (rest : List Char) (k : Nat) (jumps : List (Nat × Nat)) :
    buildJumpsAux (']' :: rest) k [] jumps = none :=
  rfl

lemma buildJumpsAux_close (rest : List Char) (k s0 : Nat) (stk : List Nat)
    (jumps : List (Nat × Nat)) :
    buildJumpsAux (']' :: rest) k (s0 :: stk) jumps =
      buildJumpsAux rest (k + 1) stk ((k, s0) :: (s0, k) :: jumps) :=
  rfl

lemma buildJumpsAux_other {c : Char} (h1 : c ≠ '[') (h2 : c ≠ ']') (rest : List Char)
    (k : Nat) (stack : List Nat) (jumps : List (Nat × Nat)) :
    buildJumpsAux (c :: rest) k stack jumps = buildJumpsAux rest (k + 1) stack jumps := by
  rw [buildJumpsAux.eq_def]
  simp [h1, h2]

lemma buildJumpsAux_isSome :
    ∀ (l : List Char) (k : Nat) (stack : List Nat) (jumps : List (Nat × Nat)),
      (buildJumpsAux l k stack jumps).isSome = true ↔
        ∀ n, ((l.take n).count ']') ≤ ((l.take n).count '[') + stack.length := by
  intro l
  induction l with
  | nil =>
    intro k stack jumps
    simp [buildJumpsAux]
  | cons c rest ih =>
    intro k stack jumps
    by_cases hc1 : c = '['
    · subst hc1
      rw [buildJumpsAux_open, ih]
      constructor
      · intro h n
        cases n with
        | zero => simp
        | succ m =>
          have hm := h m
          simp only [List.take_succ_cons, List.count_cons] at hm ⊢
          simp at hm ⊢
          omega
      · intro h n
        have hm := h (n + 1)
        simp only [List.take_succ_cons, List.count_cons] at hm ⊢
        simp at hm ⊢
        omega
    · by_cases hc2 : c = ']'
      · subst hc2
        cases stack with
        | nil =>
          rw [buildJumpsAux_close_nil]
          simp only [Option.isSome_none]
          constructor
          · intro h
            cases h
          · intro h
            have h1 := h 1
            simp [List.count_cons] at h1
        | cons s0 stk =>
          rw [buildJumpsAux_close, ih]
          constructor
          · intro h n
            cases n with
            | zero => simp
            | succ m =>
              have hm := h m
              simp only [List.take_succ_cons, List.count_cons] at hm ⊢
              simp at hm ⊢
              omega
          · intro h n
            have hm := h (n + 1)
            simp only [List.take_succ_cons, List.count_cons] at hm ⊢
            simp at hm ⊢
            omega
      · rw [buildJumpsAux_other hc1 hc2, ih]
        constructor
        · intro h n
          cases n with
          | zero => simp
          | succ m =>
            have hm := h m
            simp only [List.take_succ_cons, List.count_cons] at hm ⊢
            simp [hc1, hc2] at hm ⊢
            omega
        · intro h n
          have hm := h (n + 1)
          simp only [List.take_succ_cons, List.count_cons] at hm ⊢
          simp [hc1, hc2] at hm ⊢
          omega

lemma buildJumps_isSome (p : List Char) :
    (buildJumps p).isSome = true ↔
      ∀ n, ((p.take n).count ']') ≤ ((p.take n).count '[') := by
  rw [buildJumps, buildJumpsAux_isSome]
  simp

lemma matchDepth_close_zero (rest : List Char) (j : Nat) :
    matchDepth (']' :: rest) j 0 = some j :=
  rfl

lemma matchDepth_close_succ (rest : List Char) (j d : Nat) :
    matchDepth (']' :: rest) j (d + 1) = matchDepth rest (j + 1) d :=
  rfl

lemma matchDepth_open (rest : List Char) (j d : Nat) :
    matchDepth ('[' :: rest) j d = matchDepth rest (j + 1) (d + 1) :=
  rfl

lemma matchDepth_other {c : Char} (h1 : c ≠ '[') (h2 : c ≠ ']') (rest : List Char)
    (j d : Nat) : matchDepth (c :: rest) j d = matchDepth rest (j + 1) d := by
  rw [matchDepth.eq_def]
  simp [h1, h2]

lemma buildJumpsAux_pairok (p : List Char) :
    ∀ (l : List Char) (k : Nat) (stack : List Nat) (jumps final : List (Nat × Nat)),
      l = p.drop k →
      buildJumpsAux l k stack jumps = some final →
      (∀ m s0, stack[m]? = some s0 →
        p[s0]? = some '[' ∧ s0 < k ∧ matchClose p s0 = matchDepth l k m) →
      (∀ pr ∈ jumps, PairOk p pr) →
      ∀ pr ∈ final, PairOk p pr := by
  intro l
  induction l with
  | nil =>
    intro k stack jumps final _ hb _ hj
    rw [show buildJumpsAux [] k stack jumps = some jumps from rfl] at hb
    cases hb
    exact hj
  | cons c rest ih =>
    intro k stack jumps final hl hb hstack hj
    obtain ⟨hgk, hdrop⟩ := drop_cons hl.symm
    by_cases hc1 : c = '['
    · subst hc1
      rw [buildJumpsAux_open] at hb
      refine ih (k + 1) (k :: stack) jumps final hdrop.symm hb ?_ hj
      intro m s0 hm
      cases m with
      | zero =>
        simp at hm
        subst hm
        refine ⟨hgk, Nat.lt_succ_self k, ?_⟩
        rw [matchClose, hdrop]
      | succ m' =>
        have hOld := hstack m' s0 (by simpa using hm)
        refine ⟨hOld.1, by omega, ?_⟩
        rw [hOld.2.2]
        exact matchDepth_open rest k m'
    · by_cases hc2 : c = ']'
      · subst hc2
        cases stack with
        | nil =>
          rw [buildJumpsAux_close_nil] at hb
          cases hb
        | cons s0 stk =>
          rw [buildJumpsAux_close] at hb
          have h0 := hstack 0 s0 (by simp)
          have hms0 : matchClose p s0 = some k :=
            h0.2.2.trans (matchDepth_close_zero rest k)
          refine ih (k + 1) stk ((k, s0) :: (s0, k) :: jumps) final hdrop.symm hb ?_ ?_
          · intro m s1 hm
            have hOld := hstack (m + 1) s1 (by simpa using hm)
            refine ⟨hOld.1, by omega, ?_⟩
            rw [hOld.2.2]
            exact matchDepth_close_succ rest k m
          · intro pr hpr
            rcases List.mem_cons.mp hpr with he | hpr2
            · subst he
              exact Or.inr ⟨hgk, h0.1, h0.2.1, hms0⟩
            · rcases List.mem_cons.mp hpr2 with he2 | hpr3
              · subst he2
                exact Or.inl ⟨h0.1, hgk, h0.2.1, hms0⟩
              · exact hj pr hpr3
      · rw [buildJumpsAux_other hc1 hc2] at hb
        refine ih (k + 1) stack jumps final hdrop.symm hb ?_ hj
        intro m s0 hm
        have hOld := hstack m s0 hm
        refine ⟨hOld.1, by omega, ?_⟩
        rw [hOld.2.2]
        exact matchDepth_other hc1 hc2 rest k m

lemma buildJumps_pairok {p : List Char} {js : List (Nat × Nat)}
    (h : buildJumps p = some js) : ∀ pr ∈ js, PairOk p pr := by
  refine buildJumpsAux_pairok p p 0 [] [] js (List.drop_zero p).symm h ?_ ?_
  · intro m s0 hm
    simp at hm
  · intro pr hpr
    simp at hpr

lemma buildJumpsAux_sym :
    ∀ (l : List Char) (k : Nat) (stack : List Nat) (jumps final : List (Nat × Nat)),
      buildJumpsAux l k stack jumps = some final →
      (∀ a b, (a, b) ∈ jumps → (b, a) ∈ jumps) →
      ∀ a b, (a, b) ∈ final → (b, a) ∈ final := by
  intro l
  induction l with
  | nil =>
    intro k stack jumps final hb hj
    rw [show buildJumpsAux [] k stack jumps = some jumps from rfl] at hb
    cases hb
    exact hj
  | cons c rest ih =>
    intro k stack jumps final hb hj
    by_cases hc1 : c = '['
    · subst hc1
      rw [buildJumpsAux_open] at hb
      exact ih (k + 1) (k :: stack) jumps final hb hj
    · by_cases hc2 : c = ']'
      · subst hc2
        cases stack with
        | nil =>
          rw [buildJumpsAux_close_nil] at hb
          cases hb
        | cons s0 stk =>
          rw [buildJumpsAux_close] at hb
          refine ih (k + 1) stk _ final hb ?_
          intro a b hab
          rcases List.mem_cons.mp hab with he | hab2
          · rw [Prod.mk.injEq] at he
            rw [he.1, he.2]
            exact List.mem_cons_of_mem _ (List.mem_cons_self _ _)
          · rcases List.mem_cons.mp hab2 with he2 | hab3
            · rw [Prod.mk.injEq] at he2
              rw [he2.1, he2.2]
              exact List.mem_cons_self _ _
            · exact List.mem_cons_of_mem _ (List.mem_cons_of_mem _ (hj a b hab3))
      · rw [buildJumpsAux_other hc1 hc2] at hb
        exact ih (k + 1) stack jumps final hb hj

lemma buildJumps_sym {p : List Char} {js : List (Nat × Nat)}
    (h : buildJumps p = some js) : ∀ a b, (a, b) ∈ js → (b, a) ∈ js := by
  refine buildJumpsAux_sym p 0 [] [] js h ?_
  intro a b hab
  simp at hab

lemma buildJumpsAux_cover (p : List Char) (hbal : p.count '[' = p.count ']') :
    ∀ (l : List Char) (k : Nat) (stack : List Nat) (jumps final : List (Nat × Nat)),
      l = p.drop k →
      buildJumpsAux l k stack jumps = some final →
      stack.length + (p.take k).count ']' = (p.take k).count '[' →
      (∀ s0, s0 < k → p[s0]? = some '[' → s0 ∈ stack ∨ ∃ j, (s0, j) ∈ jumps) →
      ∀ s0, p[s0]? = some '[' → ∃ j, (s0, j) ∈ final := by
  intro l
  induction l with
  | nil =>
    intro k stack jumps final hl hb hcount hcover s0 hs0
    have hk : p.length ≤ k := List.drop_eq_nil_iff.mp hl.symm
    have hlt : s0 < p.length := lt_length_of_getElem? hs0
    rw [List.take_of_length_le hk] at hcount
    have hstack : stack = [] := by
      have : stack.length = 0 := by omega
      exact List.length_eq_zero.mp this
    rw [show buildJumpsAux [] k stack jumps = some jumps from rfl] at hb
    cases hb
    rcases hcover s0 (by omega) hs0 with hmem | hex
    · rw [hstack] at hmem
      cases hmem
    · exact hex
  | cons c rest ih =>
    intro k stack jumps final hl hb hcount hcover s0 hs0
    obtain ⟨hgk, hdrop⟩ := drop_cons hl.symm
    have hgk2 : p.take (k + 1) = p.take k ++ [c] := by
      rw [List.take_succ, hgk]
      rfl
    by_cases hc1 : c = '['
    · subst hc1
      rw [buildJumpsAux_open] at hb
      refine ih (k + 1) (k :: stack) jumps final hdrop.symm hb ?_ ?_ s0 hs0
      · rw [hgk2]
        simp only [List.count_append, List.count_cons, List.count_nil, List.length_cons]
        simp
        omega
      · intro s1 h1 hgs1
        rcases Nat.lt_succ_iff_lt_or_eq.mp h1 with h | h
        · rcases hcover s1 h hgs1 with hm | he
          · exact Or.inl (List.mem_cons_of_mem _ hm)
          · exact Or.inr he
        · subst h
          exact Or.inl (List.mem_cons_self _ _)
    · by_cases hc2 : c = ']'
      · subst hc2
        cases stack with
        | nil =>
          rw [buildJumpsAux_close_nil] at hb
          cases hb
        | cons t0 stk =>
          rw [buildJumpsAux_close] at hb
          refine ih (k + 1) stk ((k, t0) :: (t0, k) :: jumps) final hdrop.symm hb ?_ ?_ s0 hs0
          · rw [hgk2]
            simp only [List.count_append, List.count_cons, List.count_nil,
              List.length_cons] at hcount ⊢
            simp at hcount ⊢
            omega
          · intro s1 h1 hgs1
            rcases Nat.lt_succ_iff_lt_or_eq.mp h1 with h | h
            · rcases hcover s1 h hgs1 with hm | he
              · rcases List.mem_cons.mp hm with hm1 | hm2
                · subst hm1
                  exact Or.inr ⟨k, List.mem_cons_of_mem _ (List.mem_cons_self _ _)⟩
                · exact Or.inl hm2
              · obtain ⟨j, hj⟩ := he
                exact Or.inr ⟨j, List.mem_cons_of_mem _ (List.mem_cons_of_mem _ hj)⟩
            · subst h
              rw [hgk] at hgs1
              cases hgs1
      · rw [buildJumpsAux_other hc1 hc2] at hb
        refine ih (k + 1) stack jumps final hdrop.symm hb ?_ ?_ s0 hs0
        · rw [hgk2]
          simp only [List.count_append, List.count_cons, List.count_nil]
          simp [hc1, hc2]
          omega
        · intro s1 h1 hgs1
          rcases Nat.lt_succ_iff_lt_or_eq.mp h1 with h | h
          · exact hcover s1 h hgs1
          · subst h
            rw [hgk] at hgs1
            exact absurd (Option.some.inj hgs1) hc1

lemma buildJumps_cover {p : List Char} {js : List (Nat × Nat)}
    (hbal : p.count '[' = p.count ']') (h : buildJumps p = some js) :
    ∀ i, p[i]? = some '[' → ∃ j, (i, j) ∈ js := by
  refine buildJumpsAux_cover p hbal p 0 [] [] js (List.drop_zero p).symm h (by simp) ?_
  intro s0 h0 _
  exact absurd h0 (Nat.not_lt_zero s0)

lemma jlookup_mem {js : List (Nat × Nat)} {k j : Nat} (h : jlookup js k = some j) :
    (k, j) ∈ js := by
  rw [jlookup] at h
  cases hf : js.find? (fun pr => pr.1 == k) with
  | none =>
    rw [hf] at h
    cases h
  | some pr =>
    rw [hf] at h
    have hmem := List.mem_of_find?_eq_some hf
    have hkey := List.find?_some hf
    simp at h hkey
    have hpr : pr = (k, j) := by
      cases pr
      simp_all
    rw [← hpr]
    exact hmem

lemma jlookup_isSome {js : List (Nat × Nat)} {k : Nat} (h : ∃ j, (k, j) ∈ js) :
    (jlookup js k).isSome = true := by
  rw [jlookup]
  obtain ⟨j, hj⟩ := h
  cases hf : js.find? (fun pr => pr.1 == k) with
  | none =>
    have := List.find?_eq_none.mp hf (k, j) hj
    simp at this
  | some pr =>
    rfl

lemma jlookup_open_match {p : List Char} {js : List (Nat × Nat)} {i j : Nat}
    (hjs : buildJumps p = some js) (hi : p[i]? = some '[')
    (h : jlookup js i = some j) :
    matchClose p i = some j ∧ i < j ∧ p[j]? = some ']' := by
  have hmem := jlookup_mem h
  rcases buildJumps_pairok hjs (i, j) hmem with ⟨h1, h2, h3, h4⟩ | ⟨h1, h2, h3, h4⟩
  · exact ⟨h4, h3, h2⟩
  · rw [hi] at h1
    cases h1

lemma balancedSpec_of_forall_le (p : List Char)
    (h : ∀ n, n ≤ p.length → ((p.take n).count ']') ≤ ((p.take n).count '['))
    (h2 : p.count '[' = p.count ']') : balancedSpec p := by
  refine ⟨?_, h2⟩
  intro n
  rcases le_or_lt n p.length with hn | hn
  · exact h n hn
  · rw [List.take_of_length_le hn.le]
    exact le_of_eq h2.symm

/-- C1 (amended): what the jump-table pass of `Interpreter.__init__`
actually guarantees.  Construction succeeds iff no prefix of the program
has more `']'` than `'['` (a closing bracket with no pending open is the
only fatal case — pending opens remaining at the end are silently left
unmapped); the interpreter is constructed exactly when the table is
(execution never starts on failure); and every pair recorded in the
table is symmetric and links an opening bracket to its matching closing
bracket at a strictly greater position, each mapped opening bracket to
exactly one closing bracket. -/
theorem jump_table_characterization (p : List Char) :
    ((buildJumps p).isSome = true ↔
      ∀ n, ((p.take n).count ']') ≤ ((p.take n).count '[')) ∧
    (∀ dm im ibuf cmds, (mkInterpreter p dm im ibuf cmds).isSome = (buildJumps p).isSome) ∧
    (∀ js, buildJumps p = some js → ∀ a b, (a, b) ∈ js →
      ((b, a) ∈ js ∧ PairOk p (a, b)) ∧
      ∀ b', (a, b') ∈ js → p[a]? = some '[' → b = b') := by
  refine ⟨buildJumps_isSome p, ?_, ?_⟩
  · intro dm im ibuf cmds
    rw [mkInterpreter]
    cases buildJumps p <;> rfl
  · intro js hjs a b hab
    refine ⟨⟨buildJumps_sym hjs a b hab, buildJumps_pairok hjs (a, b) hab⟩, ?_⟩
    intro b' hab' ha
    have h1 := buildJumps_pairok hjs (a, b) hab
    have h2 := buildJumps_pairok hjs (a, b') hab'
    rcases h1 with ⟨_, _, _, hm1⟩ | ⟨hx, _, _, _⟩
    · rcases h2 with ⟨_, _, _, hm2⟩ | ⟨hy, _, _, _⟩
      · exact Option.some.inj (hm1.symm.trans hm2)
      · rw [ha] at hy
        exact absurd (Option.some.inj hy) (by decide)
    · rw [ha] at hx
      exact absurd (Option.some.inj hx) (by decide)

/-- Witness for the amended C1 at the program `[]`. -/
theorem jump_table_characterization_witness :
    (((1, 0) : Nat × Nat) ∈ [((1, 0) : Nat × Nat), (0, 1)] ∧ PairOk ['[', ']'] (0, 1)) ∧
    ((buildJumps ['[', ']']).isSome = true ↔
      ∀ n, (((['[', ']'] : List Char).take n).count ']') ≤
        ((['[', ']'] : List Char).take n).count '[') :=
  ⟨((jump_table_characterization ['[', ']']).2.2 [(1, 0), (0, 1)] rfl 0 1 (by decide)).1,
   (jump_table_characterization ['[', ']']).1⟩

/-- C1 (counterexample): the program `[` is not balanced (one `'['`,
no `']'`), yet jump-table construction succeeds — with an empty table —
and the interpreter is constructed and execution starts.  "Construction
succeeds iff brackets are balanced" and "pending opens remaining at the
end fail fatally" are both false on the code. -/
theorem jump_table_unbalanced_success :
    (buildJumps ['[']).isSome = true ∧
    (mkInterpreter ['['] false false [] []).isSome = true ∧
    ¬ balancedSpec ['['] := by
  refine ⟨rfl, rfl, ?_⟩
  intro h
  have h2 := h.2
  simp [List.count_cons] at h2

/-! ## C7: loop skip over the matching bracket -/

/-- C7: in a program with balanced brackets, an engine step at a `'['`
whose current cell is 0 moves the counter to the matching closing
bracket (`startbranch`) and the loop's `+1` then lands directly past
it; nothing but the program counter changes, so no instruction of the
loop body executes during the step. -/
theorem open_bracket_skip (s : BFState)
    (hbal : balancedSpec s.program)
    (hjs : buildJumps s.program = some s.jumps)
    (hop : s.program[s.iptr]? = some '[')
    (hcell : cellAt s = PyVal.int 0) :
    ∃ j, matchClose s.program s.iptr = some j ∧ s.iptr < j ∧
      s.program[j]? = some ']' ∧
      engineStep s = some { s with iptr := j + 1 } := by
  obtain ⟨j0, hj0⟩ := buildJumps_cover hbal.2 hjs s.iptr hop
  have hsome : (jlookup s.jumps s.iptr).isSome = true := jlookup_isSome ⟨j0, hj0⟩
  obtain ⟨j, hj⟩ := Option.isSome_iff_exists.mp hsome
  obtain ⟨hm1, hm2, hm3⟩ := jlookup_open_match hjs hop hj
  refine ⟨j, hm1, hm2, hm3, ?_⟩
  simp +decide [engineStep, execIns, hop, startbranch, hcell, truthy, hj]

/-- Witness for C7: the program `[+]` at its opening bracket, cell 0. -/
theorem open_bracket_skip_witness :
    ∃ j, matchClose c7w.program c7w.iptr = some j ∧ c7w.iptr < j ∧
      c7w.program[j]? = some ']' ∧ engineStep c7w = some { c7w with iptr := j + 1 } :=
  open_bracket_skip c7w (balancedSpec_of_forall_le _ (by decide) (by decide)) rfl rfl rfl

end Bfint
